import Mathlib

/-!
Verification of the elbiat evaluation core: the run state store operations of
`worker_evals.py`, the metrics parsing of `worker_evals.py` and
`sync_vlmeval_outputs.py`, the leaderboard aggregation of
`app/routes/evals.py`, and the reconciliation sync of
`sync_vlmeval_outputs.py`, embedded shallowly over explicit state.

Conventions of the embedding:
* Python floats are exact rationals plus explicit NaN / +Inf / -Inf values.
* Python dicts are association lists in insertion order with unique keys;
  assignment updates an existing key in place, otherwise appends.
* The database is a list of rows in insertion order.  A SQL `UPDATE ... WHERE
  id = :id` maps over all rows with that id; `ORDER BY created_at` is modelled
  as a deterministic stable order, ties resolving to the earlier table row.
* Timestamps are natural numbers.
-/

namespace Elbiat

/-- Python float values as used by the metrics pipeline: a finite float is
modelled as an exact rational (rounding is not modelled); NaN and the two
infinities are explicit values. -/
inductive FNum where
  | finite : ℚ → FNum
  | nan : FNum
  | inf : FNum
  | ninf : FNum
deriving DecidableEq

/-- Python/JSON values as stored in a metrics mapping (JSONB column):
floats, ints, bools, strings, None, dicts and lists. -/
inductive PyVal where
  | pfloat : FNum → PyVal
  | pint : Int → PyVal
  | pbool : Bool → PyVal
  | pstr : String → PyVal
  | pnone : PyVal
  | pdict : List (String × PyVal) → PyVal
  | plist : List PyVal → PyVal

/-- Metrics mappings (Python dicts keyed by strings). -/
abbrev Metrics := List (String × PyVal)

/-- Python dict read d.get(k): the value at the first (unique) occurrence of
the key. -/
def alookup {β : Type} (k : String) : List (String × β) → Option β
  | [] => none
  | (k', v) :: rest => if k' = k then some v else alookup k rest

/-- Python dict assignment d[k] = v: update an existing key in place,
keeping its position, otherwise append the new pair at the end. -/
def aset {β : Type} (k : String) (v : β) : List (String × β) → List (String × β)
  | [] => [(k, v)]
  | (k', v') :: rest => if k' = k then (k, v) :: rest else (k', v') :: aset k v rest

theorem alookup_aset_self {β : Type} (k : String) (v : β) (d : List (String × β)) :
    alookup k (aset k v d) = some v := by
  induction d with
  | nil => simp [aset, alookup]
  | cons hd tl ih =>
    obtain ⟨k', v'⟩ := hd
    by_cases h : k' = k <;> simp [aset, alookup, h, ih]

theorem alookup_aset_ne {β : Type} {k k' : String} (h : k' ≠ k) (v : β)
    (d : List (String × β)) : alookup k' (aset k v d) = alookup k' d := by
  induction d with
  | nil => simp [aset, alookup, Ne.symm h]
  | cons hd tl ih =>
    obtain ⟨k0, v0⟩ := hd
    by_cases h0 : k0 = k
    · subst h0
      simp [aset, alookup, Ne.symm h]
    · simp only [aset, if_neg h0, alookup]
      by_cases h1 : k0 = k' <;> simp [h1, ih]

theorem alookup_append {β : Type} (k : String) (d₁ d₂ : List (String × β)) :
    alookup k (d₁ ++ d₂) = (alookup k d₁).or (alookup k d₂) := by
  induction d₁ with
  | nil => simp [alookup]
  | cons hd tl ih =>
    obtain ⟨k', v⟩ := hd
    by_cases h : k' = k <;> simp [alookup, h, ih]

/-- Bound above which Python's float(int) raises OverflowError. -/
def pyFloatIntBound : ℕ := 2 ^ 1024

/-- Python float(n) on an int: raises OverflowError (modelled as none) when
the magnitude reaches 2^1024, otherwise the exact value (rounding is not
modelled). -/
def pyFloatOfInt (n : Int) : Option FNum :=
  if n.natAbs < pyFloatIntBound then some (.finite (n : ℚ)) else none

/-- Digit run to a natural number; none when empty or a non-digit appears. -/
def digitsToNat : List Char → Option ℕ
  | [] => none
  | cs =>
    cs.foldl (fun acc c =>
      match acc with
      | none => none
      | some n => if c.isDigit then some (10 * n + (c.toNat - 48)) else none) (some 0)

/-- Python float(s) on a string, modelled for optionally signed decimal forms
(digits, optional fraction part) and the special spellings nan / inf /
infinity; other strings (exponent forms included) are treated as ValueError
(none).  Which exact strings convert is irrelevant to every claim below. -/
def pyFloatOfString (s : String) : Option FNum :=
  let cs := (s.trim.toList.map Char.toLower)
  let neg := cs.head? = some '-'
  let body := if cs.head? = some '-' ∨ cs.head? = some '+' then cs.tail else cs
  if body = ['n', 'a', 'n'] then some .nan
  else if body = ['i', 'n', 'f'] ∨ body = ['i', 'n', 'f', 'i', 'n', 'i', 't', 'y'] then
    some (if neg then .ninf else .inf)
  else
    match body.span Char.isDigit with
    | (intPart, rest) =>
      match rest with
      | [] =>
        (digitsToNat intPart).map fun n =>
          .finite (if neg then -(n : ℚ) else (n : ℚ))
      | '.' :: frac =>
        if frac.all Char.isDigit ∧ ¬(intPart.isEmpty ∧ frac.isEmpty) then
          let ip : ℚ := ((digitsToNat intPart).getD 0 : ℕ)
          let fp : ℚ := ((digitsToNat frac).getD 0 : ℕ) / (10 : ℚ) ^ frac.length
          some (.finite (if neg then -(ip + fp) else ip + fp))
        else none
      | _ => none

/-- Status enumeration of app/models.py (class EvalStatus(str, enum.Enum)). -/
inductive EvalStatus where
  | QUEUED
  | RUNNING
  | COMPLETE
  | FAILED
deriving DecidableEq

/-- Member name of the enum; SQLAlchemy's Enum column type persists names. -/
def EvalStatus.name : EvalStatus → String
  | .QUEUED => "QUEUED"
  | .RUNNING => "RUNNING"
  | .COMPLETE => "COMPLETE"
  | .FAILED => "FAILED"

/-- Member value (the string payload of the str-mixin enum). -/
def EvalStatus.value : EvalStatus → String
  | .QUEUED => "queued"
  | .RUNNING => "running"
  | .COMPLETE => "completed"
  | .FAILED => "failed"

/-- Members in declaration order. -/
def statusMembers : List EvalStatus := [.QUEUED, .RUNNING, .COMPLETE, .FAILED]

/-- SQLAlchemy Enum bind-parameter resolution for the status column: a bound
string is looked up among the enum members and replaced by the stored
database value, which is the member name.  Because EvalStatus mixes in str,
members hash and compare as their value strings, so both the name and the
value of a member resolve; any other string raises (none). -/
def enumStatusBind (s : String) : Option String :=
  (statusMembers.find? fun st => st.name == s || st.value == s).map EvalStatus.name

/-- One row of the eval_runs table (app/models.py class Evals).  The status
column holds the stored string (the enum member name). -/
structure RunRow where
  id : ℕ
  taskId : ℕ
  modelId : ℕ
  status : String
  metrics : Option Metrics
  artifactsDir : Option String
  command : Option String
  gitCommit : Option String
  error : Option String
  createdAt : ℕ
  startedAt : Option ℕ
  finishedAt : Option ℕ

/-- EvalWorkerDB.get_next_queued_run (worker_evals.py lines 99-126):
SELECT ... WHERE status = 'QUEUED' ORDER BY created_at ASC LIMIT 1.  The
joins on tasks/models only add columns (the foreign keys are non-null), so
they do not affect which run is chosen.  SQL leaves the order of equal
created_at values unspecified; the embedding resolves ties to the earlier
table row, which is the creation order. -/
def get_next_queued_run : List RunRow → Option RunRow
  | [] => none
  | r :: rest =>
    match get_next_queued_run rest with
    | none => if r.status = "QUEUED" then some r else none
    | some b =>
      if r.status = "QUEUED" ∧ r.createdAt ≤ b.createdAt then some r else some b

/-- EvalWorkerDB.mark_running (worker_evals.py lines 128-150): UPDATE of
status, started_at, artifacts_dir, command, git_commit WHERE id = :id. -/
def mark_running (db : List RunRow) (runId : ℕ) (artifactsDir command : String)
    (gitCommit : Option String) (now : ℕ) : List RunRow :=
  db.map fun r =>
    if r.id = runId then
      { r with status := "RUNNING", startedAt := some now,
               artifactsDir := some artifactsDir, command := some command,
               gitCommit := gitCommit }
    else r

/-- EvalWorkerDB.mark_completed (worker_evals.py lines 152-171): UPDATE of
status, finished_at, metrics WHERE id = :id; the status bound is
EvalStatus.COMPLETE.name. -/
def mark_completed (db : List RunRow) (runId : ℕ) (metrics : Metrics) (now : ℕ) :
    List RunRow :=
  db.map fun r =>
    if r.id = runId then
      { r with status := EvalStatus.COMPLETE.name, finishedAt := some now,
               metrics := some metrics }
    else r

/-- The claim phase of process_one_run (worker_evals.py lines 412-440): fetch
the oldest queued run, then mark it RUNNING with the placeholder artifacts
path "pending" and a started_at stamp. -/
def claimNextQueued (db : List RunRow) (command : String) (gitCommit : Option String)
    (now : ℕ) : List RunRow × Option RunRow :=
  match get_next_queued_run db with
  | none => (db, none)
  | some r => (mark_running db r.id "pending" command gitCommit now, some r)

/-- Row inserted by sync_vlmeval_outputs.create_run (lines 201-220): a direct
terminal insert with status 'COMPLETE' and the parsed run date for all three
timestamps.  The auto-assigned primary key is abstracted as an explicit id. -/
def create_run_row (newId taskId modelId : ℕ) (metrics : Metrics)
    (artifactsDir : String) (gitCommit : Option String) (runDate : ℕ) : RunRow :=
  { id := newId, taskId := taskId, modelId := modelId, status := "COMPLETE",
    metrics := some metrics, artifactsDir := some artifactsDir, command := none,
    gitCommit := gitCommit, error := none, createdAt := runDate,
    startedAt := some runDate, finishedAt := some runDate }

/-- Leaderboard input query of get_leaderboard (app/routes/evals.py lines
323-335): completed runs of the task with a non-null metrics column, ordered
by created_at descending.  The status literal "completed" is resolved through
the Enum bind lookup to the stored value before comparison; ties on
created_at keep table order (stable sort). -/
def leaderboardQueryRows (db : List RunRow) (taskId : ℕ) : List RunRow :=
  match enumStatusBind "completed" with
  | none => []
  | some stored =>
    (db.filter fun r => r.taskId == taskId && r.status == stored && r.metrics.isSome)
      |>.insertionSort fun a b => b.createdAt ≤ a.createdAt

theorem enumStatusBind_completed : enumStatusBind "completed" = some "COMPLETE" := by
  decide

/-- C1: the leaderboard scans exactly the COMPLETE runs of the task with a
non-null metrics mapping, newest-first by creation time, and the status it
filters on is the very string written by the worker's mark_completed and by
the reconciliation insert. -/
theorem c1_leaderboard_input (db : List RunRow) (taskId : ℕ) (r : RunRow) :
    (r ∈ leaderboardQueryRows db taskId ↔
      r ∈ db ∧ r.taskId = taskId ∧ r.status = EvalStatus.COMPLETE.name ∧
        r.metrics.isSome) ∧
    (leaderboardQueryRows db taskId).Sorted (fun a b => b.createdAt ≤ a.createdAt) ∧
    (∀ runId m now r', r' ∈ mark_completed db runId m now → r'.id = runId →
      r'.status = EvalStatus.COMPLETE.name) ∧
    (∀ newId tId mId m dir gc rd,
      (create_run_row newId tId mId m dir gc rd).status = EvalStatus.COMPLETE.name) := by
  haveI hTot : IsTotal RunRow (fun a b => b.createdAt ≤ a.createdAt) :=
    ⟨fun a b => le_total b.createdAt a.createdAt⟩
  haveI hTrans : IsTrans RunRow (fun a b => b.createdAt ≤ a.createdAt) :=
    ⟨fun _ _ _ hab hbc => le_trans hbc hab⟩
  refine ⟨?_, ?_, ?_, ?_⟩
  · rw [leaderboardQueryRows, enumStatusBind_completed]
    rw [(List.perm_insertionSort _ _).mem_iff, List.mem_filter]
    simp [EvalStatus.name, and_assoc]
  · rw [leaderboardQueryRows, enumStatusBind_completed]
    exact List.sorted_insertionSort _ _
  · intro runId m now r' hmem hid
    simp only [mark_completed, List.mem_map] at hmem
    obtain ⟨r0, _, hr0⟩ := hmem
    by_cases h : r0.id = runId
    · simp only [if_pos h] at hr0
      exact hr0 ▸ rfl
    · simp only [if_neg h] at hr0
      exact absurd (hr0 ▸ hid) h
  · intro newId tId mId m dir gc rd
    rfl

theorem get_next_queued_run_none_iff (db : List RunRow) :
    get_next_queued_run db = none ↔ ∀ r ∈ db, r.status ≠ "QUEUED" := by
  induction db with
  | nil => simp [get_next_queued_run]
  | cons x rest ih =>
    cases hr : get_next_queued_run rest with
    | none =>
      constructor
      · intro h
        have h' : (if x.status = "QUEUED" then some x else none) = none := by
          rw [get_next_queued_run, hr] at h
          exact h
        intro r hrm
        rcases List.mem_cons.mp hrm with rfl | hrm'
        · intro hq
          rw [if_pos hq] at h'
          exact absurd h' (by simp)
        · exact ih.mp hr r hrm'
      · intro hall
        rw [get_next_queued_run, hr]
        show (if x.status = "QUEUED" then some x else none) = none
        rw [if_neg (hall x (.head _))]
    | some b =>
      constructor
      · intro h
        exfalso
        have h' : (if x.status = "QUEUED" ∧ x.createdAt ≤ b.createdAt then some x
            else some b) = none := by
          rw [get_next_queued_run, hr] at h
          exact h
        split at h' <;> exact absurd h' (by simp)
      · intro hall
        have hnone : get_next_queued_run rest = none :=
          ih.mpr fun r hr' => hall r (.tail _ hr')
        rw [hnone] at hr
        exact absurd hr (by simp)

theorem get_next_queued_run_spec (db : List RunRow) (r : RunRow)
    (h : get_next_queued_run db = some r) :
    r ∈ db ∧ r.status = "QUEUED" ∧
      (∀ q ∈ db, q.status = "QUEUED" → r.createdAt ≤ q.createdAt) ∧
      ∃ pre post, db = pre ++ r :: post ∧
        ∀ q ∈ pre, q.status = "QUEUED" → r.createdAt < q.createdAt := by
  induction db generalizing r with
  | nil => simp [get_next_queued_run] at h
  | cons x rest ih =>
    cases hr : get_next_queued_run rest with
    | none =>
      have h' : (if x.status = "QUEUED" then some x else none) = some r := by
        rw [get_next_queued_run, hr] at h
        exact h
      clear h
      have h := h'
      have hall := (get_next_queued_run_none_iff rest).mp hr
      by_cases hx : x.status = "QUEUED"
      · rw [if_pos hx] at h
        obtain rfl : x = r := by injection h
        refine ⟨.head _, hx, ?_, [], rest, rfl, by simp⟩
        intro q hq hqs
        rcases List.mem_cons.mp hq with rfl | hq'
        · exact le_refl _
        · exact absurd hqs (hall q hq')
      · rw [if_neg hx] at h
        exact absurd h (by simp)
    | some b =>
      have h' : (if x.status = "QUEUED" ∧ x.createdAt ≤ b.createdAt then some x
          else some b) = some r := by
        rw [get_next_queued_run, hr] at h
        exact h
      clear h
      have h := h'
      obtain ⟨hbmem, hbq, hbmin, pre', post', hsplit, hpre'⟩ := ih b hr
      by_cases hx : x.status = "QUEUED" ∧ x.createdAt ≤ b.createdAt
      · rw [if_pos hx] at h
        obtain rfl : x = r := by injection h
        refine ⟨.head _, hx.1, ?_, [], rest, rfl, by simp⟩
        intro q hq hqs
        rcases List.mem_cons.mp hq with rfl | hq'
        · exact le_refl _
        · exact le_trans hx.2 (hbmin q hq' hqs)
      · rw [if_neg hx] at h
        obtain rfl : b = r := by injection h
        refine ⟨.tail _ hbmem, hbq, ?_, x :: pre', post', by simp [hsplit], ?_⟩
        · intro q hq hqs
          rcases List.mem_cons.mp hq with rfl | hq'
          · rcases not_and_or.mp hx with h1 | h2
            · exact absurd hqs h1
            · exact le_of_lt (lt_of_not_le h2)
          · exact hbmin q hq' hqs
        · intro q hq hqs
          rcases List.mem_cons.mp hq with rfl | hq'
          · rcases not_and_or.mp hx with h1 | h2
            · exact absurd hqs h1
            · exact lt_of_not_le h2
          · exact hpre' q hq' hqs

/-- Admissible results of the SELECT in get_next_queued_run: ORDER BY
created_at ASC LIMIT 1 constrains the returned row only to be a QUEUED row
of minimal created_at; which row of several sharing that created_at comes
first is left unspecified by SQL (no secondary sort key), so every minimal
row is a possible result.  The executable get_next_queued_run above is one
admissible determinization (ties to table order). -/
def selectableOldestQueued (db : List RunRow) (r : RunRow) : Prop :=
  r ∈ db ∧ r.status = "QUEUED" ∧
    ∀ q ∈ db, q.status = "QUEUED" → r.createdAt ≤ q.createdAt

/-- Concrete run row used by witnesses and counterexamples. -/
def exRow (i : ℕ) (st : String) (cAt : ℕ) : RunRow :=
  { id := i, taskId := 1, modelId := 1, status := st, metrics := none,
    artifactsDir := none, command := none, gitCommit := none, error := none,
    createdAt := cAt, startedAt := none, finishedAt := none }

/-- C2 counterexample: with two QUEUED runs created at the same timestamp,
both rows are admissible results of the SELECT — in particular the
later-created one (id 2) — because ORDER BY created_at ASC LIMIT 1 has no
secondary key.  So the operation does not break created_at ties by creation
order as the claim states. -/
theorem c2_tie_break_counterexample :
    selectableOldestQueued [exRow 1 "QUEUED" 7, exRow 2 "QUEUED" 7]
      (exRow 1 "QUEUED" 7) ∧
    selectableOldestQueued [exRow 1 "QUEUED" 7, exRow 2 "QUEUED" 7]
      (exRow 2 "QUEUED" 7) ∧
    (exRow 1 "QUEUED" 7).createdAt = (exRow 2 "QUEUED" 7).createdAt ∧
    (exRow 1 "QUEUED" 7).id ≠ (exRow 2 "QUEUED" 7).id := by
  have hmin : ∀ q ∈ [exRow 1 "QUEUED" 7, exRow 2 "QUEUED" 7],
      q.status = "QUEUED" → (7 : ℕ) ≤ q.createdAt := by
    intro q hq _
    rcases List.mem_cons.mp hq with rfl | hq'
    · exact le_refl _
    · rw [List.mem_singleton.mp hq']
      exact le_refl _
  exact ⟨⟨List.mem_cons_self _ _, rfl, hmin⟩,
    ⟨List.mem_cons_of_mem _ (List.mem_cons_self _ _), rfl, hmin⟩, rfl, by decide⟩

/-- C2 amended: when some run is QUEUED, the claim phase of process_one_run
(the sequential composition get_next_queued_run then mark_running invoked on
the fetched id) returns a QUEUED run with minimal created_at — the choice
among runs sharing that created_at is unspecified, and the returned run is
always an admissible result of the SELECT — and the very same operation
leaves that run RUNNING with started_at stamped, all other rows unchanged. -/
theorem c2_claim_minimal_and_transition (db : List RunRow) (cmd : String)
    (gc : Option String) (now : ℕ) (h : ∃ r ∈ db, r.status = "QUEUED") :
    ∃ r, (claimNextQueued db cmd gc now).2 = some r ∧
      selectableOldestQueued db r ∧
      (claimNextQueued db cmd gc now).1 = db.map (fun q =>
        if q.id = r.id then
          { q with status := "RUNNING", startedAt := some now,
                   artifactsDir := some "pending", command := some cmd,
                   gitCommit := gc }
        else q) := by
  obtain ⟨r0, hr0, hr0q⟩ := h
  cases hg : get_next_queued_run db with
  | none =>
    exact absurd hr0q ((get_next_queued_run_none_iff db).mp hg r0 hr0)
  | some r =>
    obtain ⟨hmem, hq, hmin, hsplit⟩ := get_next_queued_run_spec db r hg
    refine ⟨r, ?_, ⟨hmem, hq, hmin⟩, ?_⟩
    · simp [claimNextQueued, hg]
    · simp [claimNextQueued, hg, mark_running]

theorem c2_claim_minimal_and_transition_witness :
    ∃ r, (claimNextQueued [exRow 1 "RUNNING" 0, exRow 2 "QUEUED" 5] "c" none 9).2 =
        some r ∧
      selectableOldestQueued [exRow 1 "RUNNING" 0, exRow 2 "QUEUED" 5] r ∧
      (claimNextQueued [exRow 1 "RUNNING" 0, exRow 2 "QUEUED" 5] "c" none 9).1 =
        [exRow 1 "RUNNING" 0, exRow 2 "QUEUED" 5].map (fun q =>
          if q.id = r.id then
            { q with status := "RUNNING", startedAt := some 9,
                     artifactsDir := some "pending", command := some "c",
                     gitCommit := none }
          else q) :=
  c2_claim_minimal_and_transition _ "c" none 9
    ⟨exRow 2 "QUEUED" 5, List.mem_cons_of_mem _ (List.mem_cons_self _ _), rfl⟩

/-- State of two workers racing the shared queue: the database plus, per
worker, the run id fetched by its last get_next_queued_run and the list of
runs it has transitioned out of QUEUED and gone on to process. -/
structure TwoWorkerState where
  db : List RunRow
  fetched0 : Option ℕ
  fetched1 : Option ℕ
  claimed0 : List ℕ
  claimed1 : List ℕ

/-- Atomic database interactions of the naive claim: each worker first runs
the SELECT of get_next_queued_run, then separately the UPDATE of
mark_running on the id it fetched (worker_evals.py issues these as two
independent transactions, and the UPDATE is keyed on id alone, with no
condition on status). -/
inductive WorkerAct where
  | sel0
  | sel1
  | upd0
  | upd1

def raceStep (s : TwoWorkerState) : WorkerAct → TwoWorkerState
  | .sel0 => { s with fetched0 := (get_next_queued_run s.db).map (·.id) }
  | .sel1 => { s with fetched1 := (get_next_queued_run s.db).map (·.id) }
  | .upd0 =>
    match s.fetched0 with
    | none => s
    | some i => { s with db := mark_running s.db i "pending" "c" none 0,
                         claimed0 := s.claimed0 ++ [i] }
  | .upd1 =>
    match s.fetched1 with
    | none => s
    | some i => { s with db := mark_running s.db i "pending" "c" none 0,
                         claimed1 := s.claimed1 ++ [i] }

def raceExec (s : TwoWorkerState) (acts : List WorkerAct) : TwoWorkerState :=
  acts.foldl raceStep s

/-- C3 evaluation: with a single QUEUED run and two workers interleaving
SELECT before either UPDATE, both workers claim and go on to process run 1 —
the same run is transitioned out of QUEUED by two workers. -/
theorem c3_double_claim_trace :
    (raceExec
      { db := [exRow 1 "QUEUED" 0], fetched0 := none, fetched1 := none,
        claimed0 := [], claimed1 := [] }
      [.sel0, .sel1, .upd0, .upd1]).claimed0 = [1] ∧
    (raceExec
      { db := [exRow 1 "QUEUED" 0], fetched0 := none, fetched1 := none,
        claimed0 := [], claimed1 := [] }
      [.sel0, .sel1, .upd0, .upd1]).claimed1 = [1] :=
  ⟨rfl, rfl⟩
/-- Python `try: metrics[key] = float(value) / except (ValueError, TypeError):
metrics[key] = value` on a string value. -/
def floatTryStr (s : String) : PyVal :=
  match pyFloatOfString s with
  | some f => .pfloat f
  | none => .pstr s

/-- The JSON branch of parse_metrics_file, iterating data.items() in order:
nested dicts are skipped; ints and bools go through float() — which raises
OverflowError on a too-large int, aborting the loop with the metrics built so
far (second component: the pending exception); strings go through the guarded
float(); everything else is stored unchanged. -/
def jsonItemsFold : List (String × PyVal) → Metrics → Metrics × Option String
  | [], m => (m, none)
  | (k, v) :: rest, m =>
    match v with
    | .pdict _ => jsonItemsFold rest m
    | .pint n =>
      match pyFloatOfInt n with
      | some f => jsonItemsFold rest (aset k (.pfloat f) m)
      | none => (m, some "OverflowError: int too large to convert to float")
    | .pbool b => jsonItemsFold rest (aset k (.pfloat (.finite (if b then 1 else 0))) m)
    | .pfloat f => jsonItemsFold rest (aset k (.pfloat f) m)
    | .pstr s => jsonItemsFold rest (aset k (floatTryStr s) m)
    | other => jsonItemsFold rest (aset k other m)

/-- Outcome of opening and decoding a metrics file at a given path, joining
the path's extension (which selects the branch) with the file's content:
the file may be missing (open raises), a .json path may fail json.load or
yield a value, and a non-.json path yields the csv.DictReader rows, each a
list of header-to-cell pairs.  Reading the rows does not itself raise. -/
inductive FileData where
  | missing (msg : String)
  | jsonBad (msg : String)
  | jsonData (v : PyVal)
  | csvRows (rows : List (List (String × String)))

/-- The CSV branch of parse_metrics_file: every row's cells are folded into
the mapping, later rows overwriting earlier ones; cell values go through the
guarded float(). -/
def csvRowsFold (rows : List (List (String × String))) : Metrics :=
  rows.foldl (fun m row => row.foldl (fun m kv => aset kv.1 (floatTryStr kv.2) m) m) []

/-- parse_metrics_file of worker_evals.py (lines 248-286): every failure is
caught by the outer `except Exception` whose handler stores the message
under parse_error in the metrics built so far, so this copy never raises. A
non-dict JSON value fails at data.items() (AttributeError) with the mapping
still empty. -/
def parse_metrics_file_worker : FileData → Metrics
  | .missing e => aset "parse_error" (.pstr e) []
  | .jsonBad e => aset "parse_error" (.pstr e) []
  | .jsonData (.pdict items) =>
    match jsonItemsFold items [] with
    | (m, none) => m
    | (m, some e) => aset "parse_error" (.pstr e) m
  | .jsonData _ => aset "parse_error" (.pstr "AttributeError: object has no attribute items") []
  | .csvRows rows => csvRowsFold rows

/-- parse_metrics_file of sync_vlmeval_outputs.py (lines 81-120): identical
parsing, but the module never defines `logger`, so the `except` handler's
first statement `logger.error(...)` raises NameError, which propagates to
the caller on every parse failure (the partially built mapping is lost). -/
def parse_metrics_file_sync : FileData → Except String Metrics
  | .missing _ => .error "NameError: name logger is not defined"
  | .jsonBad _ => .error "NameError: name logger is not defined"
  | .jsonData (.pdict items) =>
    match jsonItemsFold items [] with
    | (m, none) => .ok m
    | (_, some _) => .error "NameError: name logger is not defined"
  | .jsonData _ => .error "NameError: name logger is not defined"
  | .csvRows rows => .ok (csvRowsFold rows)

set_option maxRecDepth 8000 in
/-- C4 evaluation at the failing input: the reconciliation module's copy of
parse_metrics_file raises (NameError, from the undefined `logger` in its
exception handler) on a missing file instead of returning a parse_error
mapping; and the worker's copy, which does catch everything, can return a
mapping holding parsed entries alongside parse_error (not a single key) when
a JSON value fails float() mid-iteration. -/
theorem c4_parse_failure_behavior :
    parse_metrics_file_sync (.missing "No such file or directory") =
      .error "NameError: name logger is not defined" ∧
    parse_metrics_file_worker
      (.jsonData (.pdict [("a", .pint 1), ("b", .pint (2 ^ 1100)), ("c", .pint 2)])) =
      [("a", .pfloat (.finite 1)),
       ("parse_error", .pstr "OverflowError: int too large to convert to float")] := by
  have hover : pyFloatOfInt (2 ^ 1100) = none := by
    have habs : ((2 : ℤ) ^ 1100).natAbs = 2 ^ 1100 := by
      rw [Int.natAbs_pow]
      norm_num
    have hge : ¬((2 : ℤ) ^ 1100).natAbs < pyFloatIntBound := by
      rw [habs, pyFloatIntBound]
      exact not_lt.mpr (Nat.pow_le_pow_right (by norm_num) (by norm_num))
    rw [pyFloatOfInt, if_neg hge]
  have hfold : jsonItemsFold
      [("a", .pint 1), ("b", .pint (2 ^ 1100)), ("c", .pint 2)] [] =
      ([("a", .pfloat (.finite 1))],
        some "OverflowError: int too large to convert to float") := by
    have hone : pyFloatOfInt 1 = some (.finite 1) := by decide
    simp only [jsonItemsFold, hone, hover]
    rfl
  refine ⟨rfl, ?_⟩
  rw [parse_metrics_file_worker, hfold]
  rfl
/-- Containment of one character run inside another (substring as lists). -/
def listContains (t s : List Char) : Bool :=
  match s with
  | [] => t.isEmpty
  | _ :: s' => t.isPrefixOf s || listContains t s'

/-- Glob pattern *{task}*{sfx} against a filename: the suffix closes the name
and the task key occurs somewhere before it. -/
def globMidMatch (task sfx fname : String) : Bool :=
  List.isSuffixOf sfx.data fname.data &&
    listContains task.data (fname.data.take (fname.data.length - sfx.data.length))

/-- Glob pattern *{sfx} against a filename. -/
def globEndMatch (sfx fname : String) : Bool :=
  List.isSuffixOf sfx.data fname.data

/-- File-choice logic of the worker's parse_metrics (worker_evals.py lines
307-330) over a directory listing: (1) the exact name
{model}_{task}{suffix}; (2) glob *{task}*_acc.csv — note the hard-coded
_acc.csv, not the task's suffix; (3) last resort, glob *_acc.csv.  glob.glob
returns names in listing order, and the code takes matches[0]. -/
def parse_metrics_locator (dir : List String) (model task sfx : String) :
    Option String :=
  let exact := model ++ "_" ++ task ++ sfx
  if dir.contains exact then some exact
  else
    match dir.filter (globMidMatch task "_acc.csv") with
    | m :: _ => some m
    | [] =>
      match dir.filter (globEndMatch "_acc.csv") with
      | m :: _ => some m
      | [] => none

/-- File-choice logic of find_metrics_for_task (sync_vlmeval_outputs.py lines
123-138): (1) the exact name; (2) glob *{task}*{suffix}; there is no
last-resort step. -/
def find_metrics_for_task_locator (dir : List String) (model task sfx : String) :
    Option String :=
  let exact := model ++ "_" ++ task ++ sfx
  if dir.contains exact then some exact
  else
    match dir.filter (globMidMatch task sfx) with
    | m :: _ => some m
    | [] => none

/-- Locator as the claim states it: (1) exact {modelKey}_{taskKey}{suffix};
(2) glob *{taskKey}*{suffix} in the same directory; (3) a last-resort glob
*{suffix} with no task qualifier, performed by the reconciliation pass's
locator only. -/
def claim_locator (isRecon : Bool) (dir : List String) (model task sfx : String) :
    Option String :=
  let exact := model ++ "_" ++ task ++ sfx
  if dir.contains exact then some exact
  else
    match dir.filter (globMidMatch task sfx) with
    | m :: _ => some m
    | [] =>
      if isRecon then
        match dir.filter (globEndMatch sfx) with
        | m :: _ => some m
        | [] => none
      else none

/-- C5 counterexample: with suffix _score.json the worker misses the fuzzy
match the claim prescribes (its glob hard-codes _acc.csv), and the
last-resort *_acc.csv step is performed by the worker's locator but not by
the reconciliation pass's — the opposite of the claim. -/
theorem c5_search_order_counterexample :
    claim_locator false ["a_t_b_score.json"] "m" "t" "_score.json" =
      some "a_t_b_score.json" ∧
    parse_metrics_locator ["a_t_b_score.json"] "m" "t" "_score.json" = none ∧
    claim_locator true ["z_acc.csv"] "m" "t" "_acc.csv" = some "z_acc.csv" ∧
    find_metrics_for_task_locator ["z_acc.csv"] "m" "t" "_acc.csv" = none ∧
    claim_locator false ["z_acc.csv"] "m" "t" "_acc.csv" = none ∧
    parse_metrics_locator ["z_acc.csv"] "m" "t" "_acc.csv" = some "z_acc.csv" := by
  decide

/-- C5 amended: the search order that actually holds.  Both locators try the
exact filename first; on a miss the worker globs *{task}*_acc.csv (suffix
hard-coded) and then falls back to *_acc.csv, while the reconciliation
locator globs *{task}*{suffix} and has no last-resort step; the first match
in listing order is taken. -/
theorem c5_amended_search_order (dir : List String) (model task sfx : String) :
    parse_metrics_locator dir model task sfx =
      (if dir.contains (model ++ "_" ++ task ++ sfx) then
        some (model ++ "_" ++ task ++ sfx)
      else
        ((dir.filter (globMidMatch task "_acc.csv")).head?).or
          ((dir.filter (globEndMatch "_acc.csv")).head?)) ∧
    find_metrics_for_task_locator dir model task sfx =
      (if dir.contains (model ++ "_" ++ task ++ sfx) then
        some (model ++ "_" ++ task ++ sfx)
      else (dir.filter (globMidMatch task sfx)).head?) := by
  constructor
  · rw [parse_metrics_locator]
    split_ifs with h
    · rfl
    · cases dir.filter (globMidMatch task "_acc.csv") with
      | nil =>
        cases dir.filter (globEndMatch "_acc.csv") with
        | nil => rfl
        | cons m rest => rfl
      | cons m rest => rfl
  · rw [find_metrics_for_task_locator]
    split_ifs with h
    · rfl
    · cases dir.filter (globMidMatch task sfx) with
      | nil => rfl
      | cons m rest => rfl
/-- One row of the leaderboard scan, as consumed by the grouping loop of
get_leaderboard (app/routes/evals.py lines 345-355): the run (abstracted to
its id), the model name, and the metric value computed for it — a rational
when present, none when missing. -/
structure BEntry where
  runId : ℕ
  model : String
  mval : Option ℚ

/-- One iteration of the grouping loop: a first entry for a model is stored
as-is; afterwards a run with a present value replaces the stored entry when
the stored value is missing or strictly smaller (metric_val > existing_val),
and a missing value never replaces anything. -/
def bestStep (acc : List (String × ℕ × Option ℚ)) (e : BEntry) :
    List (String × ℕ × Option ℚ) :=
  match alookup e.model acc with
  | none => acc ++ [(e.model, e.runId, e.mval)]
  | some (_, v0) =>
    match e.mval, v0 with
    | none, _ => acc
    | some v, none => aset e.model (e.runId, some v) acc
    | some v, some v0' => if v0' < v then aset e.model (e.runId, some v) acc else acc

/-- The best_per_model dict after scanning the entries in order (the scan is
newest-first, so earlier entries are more recent runs). -/
def best_per_model (entries : List BEntry) : List (String × ℕ × Option ℚ) :=
  entries.foldl bestStep []

/-- Maximum of the present values, none when all are missing. -/
def optMax (a v : Option ℚ) : Option ℚ :=
  match v with
  | none => a
  | some q =>
    match a with
    | none => some q
    | some a' => some (max a' q)

def maxPresent (l : List (Option ℚ)) : Option ℚ := l.foldl optMax none

/-- The entries of the scan belonging to one model, in scan order. -/
def modelEntries (entries : List BEntry) (m : String) : List BEntry :=
  entries.filter fun e => e.model == m

/-- The retained entry per the claim's words: the value is the maximum
present metric value of the model's runs (missing only when every value is
missing), and the run is the first one in scan order attaining it — the
first encountered, hence the most recent, so ties do not overwrite. -/
def bestSpec (entries : List BEntry) (m : String) : Option (ℕ × Option ℚ) :=
  ((modelEntries entries m).find? fun e =>
      e.mval == maxPresent ((modelEntries entries m).map (·.mval))).map
    fun e => (e.runId, maxPresent ((modelEntries entries m).map (·.mval)))

theorem optMax_none_left (o : Option ℚ) : optMax none o = o := by
  cases o <;> rfl

theorem maxPresent_append (l : List (Option ℚ)) (o : Option ℚ) :
    maxPresent (l ++ [o]) = optMax (maxPresent l) o := by
  rw [maxPresent, List.foldl_append, List.foldl_cons, List.foldl_nil, maxPresent]

theorem maxPresent_all_none (l : List (Option ℚ)) :
    maxPresent l = none ↔ ∀ o ∈ l, o = none := by
  induction l using List.reverseRecOn with
  | nil => simp [maxPresent]
  | append_singleton l o ih =>
    rw [maxPresent_append]
    cases o with
    | none =>
      simp only [optMax, ih, List.mem_append, List.mem_singleton]
      constructor
      · intro h o ho
        rcases ho with ho | ho
        · exact h o ho
        · exact ho
      · intro h o ho
        exact h o (Or.inl ho)
    | some q =>
      cases maxPresent l <;> simp [optMax] <;>
        exact ⟨some q, Or.inr rfl, by simp⟩

theorem maxPresent_ub (l : List (Option ℚ)) (b : ℚ) (h : maxPresent l = some b) :
    ∀ q : ℚ, some q ∈ l → q ≤ b := by
  induction l using List.reverseRecOn generalizing b with
  | nil => simp [maxPresent] at h
  | append_singleton l o ih =>
    rw [maxPresent_append] at h
    intro q hq
    rcases List.mem_append.mp hq with hql | hqo
    · cases o with
      | none => exact ih b h q hql
      | some q0 =>
        cases hml : maxPresent l with
        | none => exact absurd ((maxPresent_all_none l).mp hml _ hql) (by simp)
        | some a =>
          rw [hml] at h
          have hb : b = max a q0 := by
            simpa [optMax] using h.symm
          exact le_trans (ih a hml q hql) (hb ▸ le_max_left a q0)
    · have ho : some q = o := List.mem_singleton.mp hqo
      subst ho
      cases hml : maxPresent l with
      | none =>
        rw [hml] at h
        have : b = q := by simpa [optMax] using h.symm
        exact this ▸ le_refl q
      | some a =>
        rw [hml] at h
        have hb : b = max a q := by simpa [optMax] using h.symm
        exact hb ▸ le_max_right a q

theorem maxPresent_attained (l : List (Option ℚ)) (b : ℚ)
    (h : maxPresent l = some b) : some b ∈ l := by
  induction l using List.reverseRecOn generalizing b with
  | nil => simp [maxPresent] at h
  | append_singleton l o ih =>
    rw [maxPresent_append] at h
    cases o with
    | none => exact List.mem_append.mpr (Or.inl (ih b h))
    | some q0 =>
      cases hml : maxPresent l with
      | none =>
        rw [hml] at h
        have : b = q0 := by simpa [optMax] using h.symm
        exact this ▸ List.mem_append.mpr (Or.inr (by simp))
      | some a =>
        rw [hml] at h
        have hb : b = max a q0 := by simpa [optMax] using h.symm
        rcases max_cases a q0 with ⟨hm, _⟩ | ⟨hm, _⟩
        · exact List.mem_append.mpr (Or.inl (ih b (by rw [hml, hb, hm])))
        · exact List.mem_append.mpr (Or.inr (by simp [hb, hm]))
theorem bestStep_eq_append (acc : List (String × ℕ × Option ℚ)) (x : BEntry)
    (h : alookup x.model acc = none) :
    bestStep acc x = acc ++ [(x.model, x.runId, x.mval)] := by
  rw [bestStep, h]

theorem bestStep_eq_skip_none (acc : List (String × ℕ × Option ℚ)) (x : BEntry)
    (r0 : ℕ) (v0 : Option ℚ) (h : alookup x.model acc = some (r0, v0))
    (hx : x.mval = none) : bestStep acc x = acc := by
  rw [bestStep, h, hx]

theorem bestStep_eq_replace_missing (acc : List (String × ℕ × Option ℚ)) (x : BEntry)
    (r0 : ℕ) (q : ℚ) (h : alookup x.model acc = some (r0, none))
    (hx : x.mval = some q) : bestStep acc x = aset x.model (x.runId, some q) acc := by
  rw [bestStep, h, hx]

theorem bestStep_eq_replace_gt (acc : List (String × ℕ × Option ℚ)) (x : BEntry)
    (r0 : ℕ) (b q : ℚ) (h : alookup x.model acc = some (r0, some b))
    (hx : x.mval = some q) (hlt : b < q) :
    bestStep acc x = aset x.model (x.runId, some q) acc := by
  rw [bestStep, h, hx]
  show (if b < q then aset x.model (x.runId, some q) acc else acc) = _
  rw [if_pos hlt]

theorem bestStep_eq_keep (acc : List (String × ℕ × Option ℚ)) (x : BEntry)
    (r0 : ℕ) (b q : ℚ) (h : alookup x.model acc = some (r0, some b))
    (hx : x.mval = some q) (hge : ¬b < q) : bestStep acc x = acc := by
  rw [bestStep, h, hx]
  show (if b < q then aset x.model (x.runId, some q) acc else acc) = _
  rw [if_neg hge]

theorem alookup_bestStep_ne (acc : List (String × ℕ × Option ℚ)) (x : BEntry)
    (m : String) (h : x.model ≠ m) :
    alookup m (bestStep acc x) = alookup m acc := by
  cases halt : alookup x.model acc with
  | none =>
    rw [bestStep_eq_append acc x halt, alookup_append]
    have hsing : alookup m [(x.model, x.runId, x.mval)] = none := by
      simp [alookup, h]
    rw [hsing]
    cases alookup m acc <;> rfl
  | some p =>
    obtain ⟨r0, v0⟩ := p
    cases hx : x.mval with
    | none => rw [bestStep_eq_skip_none acc x r0 v0 halt hx]
    | some q =>
      cases v0 with
      | none =>
        rw [bestStep_eq_replace_missing acc x r0 q halt hx]
        exact alookup_aset_ne (Ne.symm h) _ acc
      | some b =>
        by_cases hlt : b < q
        · rw [bestStep_eq_replace_gt acc x r0 b q halt hx hlt]
          exact alookup_aset_ne (Ne.symm h) _ acc
        · rw [bestStep_eq_keep acc x r0 b q halt hx hlt]

theorem bestSpec_eq_none_iff (l : List BEntry) (m : String) :
    bestSpec l m = none ↔ modelEntries l m = [] := by
  constructor
  · intro h
    by_contra hne
    rw [bestSpec, Option.map_eq_none'] at h
    have hforall := List.find?_eq_none.mp h
    obtain ⟨e0, tl, hcons⟩ := List.exists_cons_of_ne_nil hne
    cases hv : maxPresent ((modelEntries l m).map (·.mval)) with
    | none =>
      have he0 : e0.mval = none :=
        (maxPresent_all_none _).mp hv e0.mval
          (List.mem_map_of_mem _ (hcons ▸ List.mem_cons_self e0 tl))
      exact hforall e0 (hcons ▸ List.mem_cons_self e0 tl) (by simp [he0, hv])
    | some b =>
      obtain ⟨e, hemem, heval⟩ :=
        List.mem_map.mp (maxPresent_attained _ b hv)
      exact hforall e hemem (by simp [heval, hv])
  · intro h
    rw [bestSpec, h]
    rfl
/-- C6: scanning newest-first, the grouping loop retains exactly one entry
per model, whose value is the maximum present metric value of that model's
runs (missing only when every value is missing) and whose run is the first
one in scan order attaining that value — so a present value always replaces
a retained missing one, among present values the strictly greater wins, and
equal values keep the first-encountered (most recent) run. -/
theorem c6_best_per_model_characterization (entries : List BEntry) (m : String) :
    alookup m (best_per_model entries) = bestSpec entries m := by
  induction entries using List.reverseRecOn with
  | nil => rfl
  | append_singleton l x ih =>
    have hfold : best_per_model (l ++ [x]) = bestStep (best_per_model l) x := by
      rw [best_per_model, List.foldl_append, List.foldl_cons, List.foldl_nil,
        ← best_per_model]
    rw [hfold]
    by_cases hm : x.model = m
    · subst hm
      have hfilt : modelEntries (l ++ [x]) x.model = modelEntries l x.model ++ [x] := by
        rw [modelEntries, List.filter_append, ← modelEntries]
        simp [List.filter]
      cases hS : bestSpec l x.model with
      | none =>
        have hms : modelEntries l x.model = [] := (bestSpec_eq_none_iff l x.model).mp hS
        have hA : alookup x.model (best_per_model l) = none := by rw [ih, hS]
        rw [bestStep_eq_append _ _ hA, alookup_append, hA]
        have hsing : alookup x.model [(x.model, x.runId, x.mval)] =
            some (x.runId, x.mval) := by
          simp [alookup]
        rw [hsing]
        rw [bestSpec, hfilt, hms]
        simp only [List.nil_append, List.map_cons, List.map_nil]
        have hmp : maxPresent [x.mval] = x.mval := by
          show optMax none x.mval = x.mval
          exact optMax_none_left x.mval
        rw [hmp, List.find?_cons_of_pos _ (by simp)]
        rfl
      | some p =>
        obtain ⟨r0, v0⟩ := p
        have hA : alookup x.model (best_per_model l) = some (r0, v0) := by rw [ih, hS]
        rw [bestSpec, Option.map_eq_some'] at hS
        obtain ⟨e0, hfind, hpair⟩ := hS
        have hr0 : e0.runId = r0 := congrArg Prod.fst hpair
        have hv0 : maxPresent ((modelEntries l x.model).map (·.mval)) = v0 :=
          congrArg Prod.snd hpair
        rw [hv0] at hfind
        rw [bestSpec, hfilt, List.map_append, List.map_cons, List.map_nil,
          maxPresent_append, hv0]
        cases hx : x.mval with
        | none =>
          rw [bestStep_eq_skip_none _ _ r0 v0 hA hx, hA]
          rw [show optMax v0 none = v0 from rfl, List.find?_append, hfind]
          rw [show (some e0).or (List.find? (fun e => e.mval == v0) [x]) = some e0
            from rfl]
          rw [Option.map_some', hr0]
        | some q =>
          cases v0 with
          | none =>
            have hall : ∀ o ∈ (modelEntries l x.model).map (·.mval), o = none :=
              (maxPresent_all_none _).mp hv0
            rw [bestStep_eq_replace_missing _ _ r0 q hA hx,
              alookup_aset_self, show optMax none (some q) = some q from rfl]
            have hnone : List.find? (fun e => e.mval == some q)
                (modelEntries l x.model) = none := by
              apply List.find?_eq_none.mpr
              intro e he hpe
              have : e.mval = none := hall e.mval (List.mem_map_of_mem _ he)
              simp [this] at hpe
            rw [List.find?_append, hnone,
              show (Option.or none (List.find? (fun e => e.mval == some q) [x])) =
                List.find? (fun e => e.mval == some q) [x] from rfl,
              List.find?_cons_of_pos _ (by simp [hx]), Option.map_some']
          | some b =>
            by_cases hlt : b < q
            · rw [bestStep_eq_replace_gt _ _ r0 b q hA hx hlt, alookup_aset_self,
                show optMax (some b) (some q) = some (max b q) from rfl,
                max_eq_right (le_of_lt hlt)]
              have hnone : List.find? (fun e => e.mval == some q)
                  (modelEntries l x.model) = none := by
                apply List.find?_eq_none.mpr
                intro e he hpe
                have heq : e.mval = some q := by simpa using hpe
                have hmem : some q ∈ (modelEntries l x.model).map (·.mval) :=
                  heq ▸ List.mem_map_of_mem _ he
                exact absurd (maxPresent_ub _ b hv0 q hmem) (not_le.mpr hlt)
              rw [List.find?_append, hnone,
                show (Option.or none (List.find? (fun e => e.mval == some q) [x])) =
                  List.find? (fun e => e.mval == some q) [x] from rfl,
                List.find?_cons_of_pos _ (by simp [hx]), Option.map_some']
            · rw [bestStep_eq_keep _ _ r0 b q hA hx hlt, hA,
                show optMax (some b) (some q) = some (max b q) from rfl,
                max_eq_left (not_lt.mp hlt), List.find?_append, hfind,
                show (some e0).or (List.find? (fun e => e.mval == some b) [x]) =
                  some e0 from rfl,
                Option.map_some', hr0]
    · have hbe : (x.model == m) = false := beq_eq_false_iff_ne.mpr hm
      have hfilt : modelEntries (l ++ [x]) m = modelEntries l m := by
        rw [modelEntries, List.filter_append, ← modelEntries]
        simp [List.filter, hbe]
      rw [alookup_bestStep_ne _ _ _ hm, ih]
      simp only [bestSpec]
      rw [hfilt]
/-- Sort key of get_leaderboard (lines 357-362): the metric value, with a
missing value replaced by the sentinel -999999. -/
def sortKey (x : String × ℕ × Option ℚ) : ℚ :=
  match x.2.2 with
  | some v => v
  | none => -999999

/-- Final ordering of get_leaderboard (lines 357-365): Python's sorted is
stable and reverse=True reverses comparisons while keeping ties in original
order, modelled by a stable insertion sort under the reversed key
comparison; the result is truncated to limit. -/
def leaderboard_order (vals : List (String × ℕ × Option ℚ)) (limit : ℕ) :
    List (String × ℕ × Option ℚ) :=
  (vals.insertionSort fun a b => sortKey b ≤ sortKey a).take limit

/-- C7 counterexample: a present metric value below the sentinel sorts after
a missing one — the first returned entry has a missing value, the second a
present one, so missing values are not always placed after present ones. -/
theorem c7_missing_before_present_counterexample :
    (leaderboard_order [("B", 2, none), ("A", 1, some (-1000000 : ℚ))] 50).map
      (fun x => x.2.2.isSome) = [false, true] := by
  decide

/-- C7 amended: the list is ordered descending by the key (metric value, or
-999999 when missing) and truncated to limit, with no entry dropped before
truncation; provided every present value exceeds the sentinel -999999, every
missing-value entry is placed after every present-value entry. -/
theorem c7_order_amended (vals : List (String × ℕ × Option ℚ)) (limit : ℕ)
    (h : ∀ x ∈ vals, ∀ q : ℚ, x.2.2 = some q → -999999 < q) :
    ((leaderboard_order vals limit).Sorted fun a b => sortKey b ≤ sortKey a) ∧
    ((leaderboard_order vals limit).Pairwise fun a b => a.2.2 = none → b.2.2 = none) ∧
    (leaderboard_order vals limit).length = min limit vals.length ∧
    (∀ x ∈ leaderboard_order vals limit, x ∈ vals) ∧
    (vals.length ≤ limit → (leaderboard_order vals limit).Perm vals) := by
  haveI hTot : IsTotal (String × ℕ × Option ℚ) (fun a b => sortKey b ≤ sortKey a) :=
    ⟨fun a b => le_total (sortKey b) (sortKey a)⟩
  haveI hTrans : IsTrans (String × ℕ × Option ℚ) (fun a b => sortKey b ≤ sortKey a) :=
    ⟨fun _ _ _ hab hbc => le_trans hbc hab⟩
  have hperm := List.perm_insertionSort (fun a b => sortKey b ≤ sortKey a) vals
  have hsorted := List.sorted_insertionSort (fun a b => sortKey b ≤ sortKey a) vals
  have htake : List.Sublist (leaderboard_order vals limit)
      (vals.insertionSort fun a b => sortKey b ≤ sortKey a) :=
    List.take_sublist _ _
  have hsortedTake : (leaderboard_order vals limit).Sorted
      fun a b => sortKey b ≤ sortKey a :=
    List.Pairwise.sublist htake hsorted
  have hmemTake : ∀ x ∈ leaderboard_order vals limit, x ∈ vals := fun x hx =>
    hperm.mem_iff.mp (htake.subset hx)
  refine ⟨hsortedTake, ?_, ?_, hmemTake, ?_⟩
  · refine List.Pairwise.imp_of_mem ?_ hsortedTake
    intro a b ha hb hkey hanone
    have hka : sortKey a = -999999 := by simp [sortKey, hanone]
    cases hb2 : b.2.2 with
    | none => rfl
    | some q =>
      have hq : -999999 < q := h b (hmemTake b hb) q hb2
      have hkb : sortKey b = q := by simp [sortKey, hb2]
      rw [hka, hkb] at hkey
      exact absurd hkey (not_le.mpr hq)
  · rw [leaderboard_order, List.length_take, hperm.length_eq]
  · intro hlen
    rw [leaderboard_order, List.take_of_length_le (by rw [hperm.length_eq]; exact hlen)]
    exact hperm
theorem c7_order_amended_witness :
    ((leaderboard_order [("A", 1, some (5 : ℚ)), ("B", 2, none)] 1).Sorted
      fun a b => sortKey b ≤ sortKey a) ∧
    ((leaderboard_order [("A", 1, some (5 : ℚ)), ("B", 2, none)] 1).Pairwise
      fun a b => a.2.2 = none → b.2.2 = none) ∧
    (leaderboard_order [("A", 1, some (5 : ℚ)), ("B", 2, none)] 1).length =
      min 1 ([("A", 1, some (5 : ℚ)), ("B", 2, none)] :
        List (String × ℕ × Option ℚ)).length ∧
    (∀ x ∈ leaderboard_order [("A", 1, some (5 : ℚ)), ("B", 2, none)] 1,
      x ∈ ([("A", 1, some (5 : ℚ)), ("B", 2, none)] :
        List (String × ℕ × Option ℚ))) ∧
    (([("A", 1, some (5 : ℚ)), ("B", 2, none)] :
        List (String × ℕ × Option ℚ)).length ≤ 1 →
      (leaderboard_order [("A", 1, some (5 : ℚ)), ("B", 2, none)] 1).Perm
        [("A", 1, some (5 : ℚ)), ("B", 2, none)]) :=
  c7_order_amended _ 1 (by
    intro x hx q hq
    rcases List.mem_cons.mp hx with rfl | hx'
    · have h5 : some (5 : ℚ) = some q := hq
      injection h5 with h5'
      rw [← h5']
      norm_num
    · have hB : x = ("B", 2, none) := List.mem_singleton.mp hx'
      rw [hB] at hq
      exact absurd hq (by simp))

mutual

/-- sanitize_metrics of app/routes/evals.py (lines 238-251) on one value:
a float that is NaN or one of the infinities becomes None, a nested dict is
sanitized recursively, anything else (ints, bools, strings, None, lists) is
kept unchanged. -/
def sanitizeVal : PyVal → PyVal
  | .pfloat (.finite q) => .pfloat (.finite q)
  | .pfloat _ => .pnone
  | .pdict d => .pdict (sanitize_metrics d)
  | v => v

/-- sanitize_metrics on a mapping: every value sanitized, keys and order
kept (an empty mapping is returned as-is). -/
def sanitize_metrics : List (String × PyVal) → List (String × PyVal)
  | [] => []
  | (k, v) :: rest => (k, sanitizeVal v) :: sanitize_metrics rest

end

/-- Python float addition on the embedded values (NaN absorbs; opposite
infinities give NaN), as performed by np.mean's summation. -/
def fadd : FNum → FNum → FNum
  | .nan, _ => .nan
  | _, .nan => .nan
  | .inf, .ninf => .nan
  | .ninf, .inf => .nan
  | .inf, _ => .inf
  | _, .inf => .inf
  | .ninf, _ => .ninf
  | _, .ninf => .ninf
  | .finite a, .finite b => .finite (a + b)

def fsum (l : List FNum) : FNum := l.foldl fadd (.finite 0)

/-- Division by a positive count, for np.mean. -/
def fdivNat (x : FNum) (n : ℕ) : FNum :=
  match x with
  | .finite a => .finite (a / n)
  | x => x

/-- Binary minimum as np.min folds it (NaN propagates). -/
def fmin : FNum → FNum → FNum
  | .nan, _ => .nan
  | _, .nan => .nan
  | .ninf, _ => .ninf
  | _, .ninf => .ninf
  | .inf, b => b
  | a, .inf => a
  | .finite a, .finite b => .finite (min a b)

/-- Binary maximum as np.max folds it (NaN propagates). -/
def fmax : FNum → FNum → FNum
  | .nan, _ => .nan
  | _, .nan => .nan
  | .inf, _ => .inf
  | _, .inf => .inf
  | .ninf, b => b
  | a, .ninf => a
  | .finite a, .finite b => .finite (max a b)

/-- The aggregate filter of get_metric_val (lines 166, 169, 172):
isinstance(v, (int, float)) and not math.isnan(v) — ints, bools and floats
qualify, NaN is dropped, but the infinities pass the filter. -/
def aggOf : PyVal → Option FNum
  | .pint n => some (.finite (n : ℚ))
  | .pbool b => some (.finite (if b then 1 else 0))
  | .pfloat (.finite q) => some (.finite q)
  | .pfloat .inf => some .inf
  | .pfloat .ninf => some .ninf
  | _ => none

def aggVals (ms : Metrics) : List FNum := ms.filterMap fun kv => aggOf kv.2

/-- get_metric_val of app/routes/evals.py (lines 162-178): None on an empty
mapping; avg / min / max aggregate the numeric values; a literal key is
looked up directly, a NaN float (or Python None, which is indistinguishable
from a missing key for the caller) yielding None. -/
def get_metric_val (ms : Metrics) (key : String) : Option PyVal :=
  if ms.isEmpty then none
  else if key = "avg" then
    match aggVals ms with
    | [] => none
    | l => some (.pfloat (fdivNat (fsum l) l.length))
  else if key = "min" then
    match aggVals ms with
    | [] => none
    | x :: rest => some (.pfloat (rest.foldl fmin x))
  else if key = "max" then
    match aggVals ms with
    | [] => none
    | x :: rest => some (.pfloat (rest.foldl fmax x))
  else
    match alookup key ms with
    | none => none
    | some (.pfloat .nan) => none
    | some .pnone => none
    | some v => some v

mutual

/-- No NaN or infinity at the top level or inside nested dicts (list values
are untouched by sanitize_metrics and are not inspected here, mirroring the
code). -/
def valNonFiniteFree : PyVal → Bool
  | .pfloat (.finite _) => true
  | .pfloat _ => false
  | .pdict d => dictNonFiniteFree d
  | _ => true

def dictNonFiniteFree : List (String × PyVal) → Bool
  | [] => true
  | (_, v) :: rest => valNonFiniteFree v && dictNonFiniteFree rest

end

mutual

theorem sanitizeVal_free : ∀ v : PyVal, valNonFiniteFree (sanitizeVal v) = true
  | .pfloat (.finite _) => rfl
  | .pfloat .nan => rfl
  | .pfloat .inf => rfl
  | .pfloat .ninf => rfl
  | .pint _ => rfl
  | .pbool _ => rfl
  | .pstr _ => rfl
  | .pnone => rfl
  | .pdict d => sanitize_metrics_free d
  | .plist _ => rfl

theorem sanitize_metrics_free :
    ∀ d : List (String × PyVal), dictNonFiniteFree (sanitize_metrics d) = true
  | [] => rfl
  | (k, v) :: rest => by
    show (valNonFiniteFree (sanitizeVal v) && dictNonFiniteFree (sanitize_metrics rest)) =
      true
    rw [sanitizeVal_free v, sanitize_metrics_free rest]
    rfl

end
theorem alookup_free (d : List (String × PyVal)) (k : String) (v : PyVal)
    (hd : dictNonFiniteFree d = true) (h : alookup k d = some v) :
    valNonFiniteFree v = true := by
  induction d with
  | nil => simp [alookup] at h
  | cons kv rest ih =>
    obtain ⟨k', v'⟩ := kv
    have hsplit : valNonFiniteFree v' = true ∧ dictNonFiniteFree rest = true := by
      exact Bool.and_eq_true_iff.mp hd
    rw [alookup] at h
    by_cases hk : k' = k
    · rw [if_pos hk] at h
      injection h with hv
      exact hv ▸ hsplit.1
    · rw [if_neg hk] at h
      exact ih hsplit.2 h

theorem aggVals_finite_of_free (ms : Metrics) (h : dictNonFiniteFree ms = true) :
    ∀ x ∈ aggVals ms, ∃ q, x = FNum.finite q := by
  induction ms with
  | nil => simp [aggVals]
  | cons kv rest ih =>
    obtain ⟨k, v⟩ := kv
    have hsplit : valNonFiniteFree v = true ∧ dictNonFiniteFree rest = true :=
      Bool.and_eq_true_iff.mp h
    intro x hx
    rw [aggVals, List.filterMap_cons] at hx
    cases v with
    | pfloat f =>
      cases f with
      | finite q =>
        rcases List.mem_cons.mp hx with rfl | hx'
        · exact ⟨q, rfl⟩
        · exact ih hsplit.2 x hx'
      | nan => exact ih hsplit.2 x hx
      | inf => exact absurd hsplit.1 (by simp [valNonFiniteFree])
      | ninf => exact absurd hsplit.1 (by simp [valNonFiniteFree])
    | pint n =>
      rcases List.mem_cons.mp hx with rfl | hx'
      · exact ⟨(n : ℚ), rfl⟩
      · exact ih hsplit.2 x hx'
    | pbool b =>
      rcases List.mem_cons.mp hx with rfl | hx'
      · exact ⟨if b then 1 else 0, rfl⟩
      · exact ih hsplit.2 x hx'
    | pstr s => exact ih hsplit.2 x hx
    | pnone => exact ih hsplit.2 x hx
    | pdict d => exact ih hsplit.2 x hx
    | plist l => exact ih hsplit.2 x hx

theorem foldl_finite (op : FNum → FNum → FNum)
    (hop : ∀ a b, (∃ qa, a = FNum.finite qa) → (∃ qb, b = FNum.finite qb) →
      ∃ q, op a b = FNum.finite q)
    (l : List FNum) (a : FNum) (ha : ∃ q, a = FNum.finite q)
    (hl : ∀ x ∈ l, ∃ q, x = FNum.finite q) :
    ∃ q, l.foldl op a = FNum.finite q := by
  induction l generalizing a with
  | nil => exact ha
  | cons x rest ih =>
    exact ih (op a x) (hop a x ha (hl x (List.mem_cons_self x rest)))
      fun y hy => hl y (List.mem_cons_of_mem x hy)

theorem fadd_finite (a b : FNum) (ha : ∃ qa, a = FNum.finite qa)
    (hb : ∃ qb, b = FNum.finite qb) : ∃ q, fadd a b = FNum.finite q := by
  obtain ⟨qa, rfl⟩ := ha
  obtain ⟨qb, rfl⟩ := hb
  exact ⟨qa + qb, rfl⟩

theorem fmin_finite (a b : FNum) (ha : ∃ qa, a = FNum.finite qa)
    (hb : ∃ qb, b = FNum.finite qb) : ∃ q, fmin a b = FNum.finite q := by
  obtain ⟨qa, rfl⟩ := ha
  obtain ⟨qb, rfl⟩ := hb
  exact ⟨min qa qb, rfl⟩

theorem fmax_finite (a b : FNum) (ha : ∃ qa, a = FNum.finite qa)
    (hb : ∃ qb, b = FNum.finite qb) : ∃ q, fmax a b = FNum.finite q := by
  obtain ⟨qa, rfl⟩ := ha
  obtain ⟨qb, rfl⟩ := hb
  exact ⟨max qa qb, rfl⟩

/-- C8: whatever the metrics mapping and the metric key — literal or one of
the aggregate sentinels — the value the leaderboard computes after
sanitization is never NaN or an infinity (nor does one hide inside a nested
dict of the returned value). -/
theorem c8_sanitized_metric_value (ms : Metrics) (key : String) :
    (get_metric_val (sanitize_metrics ms) key).all valNonFiniteFree = true := by
  have hfree : dictNonFiniteFree (sanitize_metrics ms) = true :=
    sanitize_metrics_free ms
  have haggfin := aggVals_finite_of_free (sanitize_metrics ms) hfree
  rw [get_metric_val]
  by_cases hE : (sanitize_metrics ms).isEmpty
  · rw [if_pos hE]
    rfl
  rw [if_neg hE]
  by_cases hAvg : key = "avg"
  · rw [if_pos hAvg]
    cases hagg : aggVals (sanitize_metrics ms) with
    | nil => rfl
    | cons x rest =>
      rw [hagg] at haggfin
      show (some (PyVal.pfloat (fdivNat (fsum (x :: rest)) (x :: rest).length))).all
        valNonFiniteFree = true
      obtain ⟨s, hs⟩ := foldl_finite fadd fadd_finite (x :: rest) (.finite 0)
        ⟨0, rfl⟩ haggfin
      rw [show fsum (x :: rest) = (x :: rest).foldl fadd (.finite 0) from rfl, hs]
      rfl
  rw [if_neg hAvg]
  by_cases hMin : key = "min"
  · rw [if_pos hMin]
    cases hagg : aggVals (sanitize_metrics ms) with
    | nil => rfl
    | cons x rest =>
      rw [hagg] at haggfin
      show (some (PyVal.pfloat (rest.foldl fmin x))).all valNonFiniteFree = true
      obtain ⟨s, hs⟩ := foldl_finite fmin fmin_finite rest x
        (haggfin x (List.mem_cons_self x rest))
        (fun y hy => haggfin y (List.mem_cons_of_mem x hy))
      rw [hs]
      rfl
  rw [if_neg hMin]
  by_cases hMax : key = "max"
  · rw [if_pos hMax]
    cases hagg : aggVals (sanitize_metrics ms) with
    | nil => rfl
    | cons x rest =>
      rw [hagg] at haggfin
      show (some (PyVal.pfloat (rest.foldl fmax x))).all valNonFiniteFree = true
      obtain ⟨s, hs⟩ := foldl_finite fmax fmax_finite rest x
        (haggfin x (List.mem_cons_self x rest))
        (fun y hy => haggfin y (List.mem_cons_of_mem x hy))
      rw [hs]
      rfl
  rw [if_neg hMax]
  cases hlook : alookup key (sanitize_metrics ms) with
  | none => rfl
  | some v =>
    have hvfree : valNonFiniteFree v = true :=
      alookup_free _ key v hfree hlook
    cases v with
    | pfloat f =>
      cases f with
      | finite q => rfl
      | nan => rfl
      | inf => exact absurd hvfree (by simp [valNonFiniteFree])
      | ninf => exact absurd hvfree (by simp [valNonFiniteFree])
    | pint n => rfl
    | pbool b => rfl
    | pstr s => rfl
    | pnone => rfl
    | pdict d =>
      show valNonFiniteFree (.pdict d) = true
      exact hvfree
    | plist l => rfl
/-- Fixed inputs of one sync_outputs pass (sync_vlmeval_outputs.py lines
227-320) over an unchanging output tree and catalog: the registered
model-named top-level directories with their model ids, in listing order;
the run directories under each (the sorted T*_G* glob); the parse of a run
directory name into (run date, git commit), none when the name does not
match; the task catalog as (vlmeval key, task id) in dict order; the
find-and-parse result of find_metrics_for_task for a run directory path and
task key; and the artifacts listing of a directory. -/
structure SyncEnv where
  modelDirs : List (String × ℕ)
  runDirs : String → List String
  runInfo : String → Option (ℕ × String)
  tasks : List (String × ℕ)
  findM : String → String → Option Metrics
  artifactsOf : String → PyVal

/-- run_exists (lines 187-198): a row with this (task, model, artifacts
directory) triple is present. -/
def run_exists (db : List RunRow) (taskId modelId : ℕ) (dir : String) : Bool :=
  db.any fun r => r.taskId == taskId && r.modelId == modelId &&
    r.artifactsDir == some dir

/-- One (model, run directory, task) combination visited by the sync loops. -/
structure SyncItem where
  modelId : ℕ
  path : String
  taskKey : String
  taskId : ℕ
  runDate : ℕ
  gitCommit : String

/-- The combinations visited by sync_outputs, flattening its three nested
loops: registered model directories, their parseable T*_G* run directories,
and every known task. -/
def syncItems (env : SyncEnv) : List SyncItem :=
  env.modelDirs.flatMap fun md =>
    (env.runDirs md.1).flatMap fun d =>
      match env.runInfo d with
      | none => []
      | some rdgc =>
        env.tasks.map fun t =>
          { modelId := md.2, path := md.1 ++ "/" ++ d, taskKey := t.1,
            taskId := t.2, runDate := rdgc.1, gitCommit := rdgc.2 }

/-- The body of the innermost sync loop (lines 276-309): skip when no
metrics were found or the mapping is falsy (empty); skip when the (task,
model, directory) row already exists; otherwise augment the metrics with
the artifacts list and directory and insert a COMPLETE row, counting the
insert. -/
def syncStep (env : SyncEnv) (st : List RunRow × ℕ) (it : SyncItem) :
    List RunRow × ℕ :=
  match env.findM it.path it.taskKey with
  | none => st
  | some ms =>
    if ms.isEmpty then st
    else if run_exists st.1 it.taskId it.modelId it.path then st
    else
      (st.1 ++ [create_run_row 0 it.taskId it.modelId
        (aset "artifacts_dir" (.pstr it.path)
          (aset "artifacts" (env.artifactsOf it.path) ms))
        it.path (some it.gitCommit) it.runDate], st.2 + 1)

/-- One sync pass: the database after the walk, with the number of rows
inserted. -/
def sync_outputs (env : SyncEnv) (db : List RunRow) : List RunRow × ℕ :=
  (syncItems env).foldl (syncStep env) (db, 0)

/-- The guard under which the loop attempts an insert for a combination. -/
def syncGuard (env : SyncEnv) (it : SyncItem) : Bool :=
  match env.findM it.path it.taskKey with
  | none => false
  | some ms => !ms.isEmpty

theorem syncStep_none (env : SyncEnv) (st : List RunRow × ℕ) (it : SyncItem)
    (hfm : env.findM it.path it.taskKey = none) : syncStep env st it = st := by
  rw [syncStep, hfm]

theorem syncStep_some (env : SyncEnv) (st : List RunRow × ℕ) (it : SyncItem)
    (ms : Metrics) (hfm : env.findM it.path it.taskKey = some ms) :
    syncStep env st it =
      (if ms.isEmpty then st
      else if run_exists st.1 it.taskId it.modelId it.path then st
      else
        (st.1 ++ [create_run_row 0 it.taskId it.modelId
          (aset "artifacts_dir" (.pstr it.path)
            (aset "artifacts" (env.artifactsOf it.path) ms))
          it.path (some it.gitCommit) it.runDate], st.2 + 1)) := by
  rw [syncStep, hfm]

theorem syncStep_fst_mono (env : SyncEnv) (st : List RunRow × ℕ) (it : SyncItem) :
    ∀ r ∈ st.1, r ∈ (syncStep env st it).1 := by
  intro r hr
  cases hfm : env.findM it.path it.taskKey with
  | none =>
    rw [syncStep_none env st it hfm]
    exact hr
  | some ms =>
    rw [syncStep_some env st it ms hfm]
    by_cases hemp : ms.isEmpty = true
    · rw [if_pos hemp]
      exact hr
    · rw [if_neg hemp]
      by_cases hex : run_exists st.1 it.taskId it.modelId it.path = true
      · rw [if_pos hex]
        exact hr
      · rw [if_neg hex]
        exact List.mem_append_left _ hr

theorem run_exists_mono (db db' : List RunRow) (t m : ℕ) (d : String)
    (hsub : ∀ r ∈ db, r ∈ db') (h : run_exists db t m d = true) :
    run_exists db' t m d = true := by
  rw [run_exists, List.any_eq_true] at h ⊢
  obtain ⟨r, hr, hp⟩ := h
  exact ⟨r, hsub r hr, hp⟩

theorem foldl_syncStep_mono (env : SyncEnv) (items : List SyncItem)
    (st : List RunRow × ℕ) :
    ∀ r ∈ st.1, r ∈ (items.foldl (syncStep env) st).1 := by
  induction items generalizing st with
  | nil => exact fun r hr => hr
  | cons x rest ih =>
    intro r hr
    rw [List.foldl_cons]
    exact ih (syncStep env st x) r (syncStep_fst_mono env st x r hr)

theorem syncStep_covers (env : SyncEnv) (st : List RunRow × ℕ) (it : SyncItem)
    (hg : syncGuard env it = true) :
    run_exists (syncStep env st it).1 it.taskId it.modelId it.path = true := by
  cases hfm : env.findM it.path it.taskKey with
  | none =>
    rw [syncGuard, hfm] at hg
    exact absurd hg (by decide)
  | some ms =>
    rw [syncGuard, hfm] at hg
    have hg' : (!ms.isEmpty) = true := hg
    have hemp : ¬ms.isEmpty = true := by
      intro hc
      rw [hc] at hg'
      exact absurd hg' (by decide)
    rw [syncStep_some env st it ms hfm, if_neg hemp]
    by_cases hex : run_exists st.1 it.taskId it.modelId it.path = true
    · rw [if_pos hex]
      exact hex
    · rw [if_neg hex, run_exists, List.any_eq_true]
      refine ⟨create_run_row 0 it.taskId it.modelId
        (aset "artifacts_dir" (.pstr it.path)
          (aset "artifacts" (env.artifactsOf it.path) ms))
        it.path (some it.gitCommit) it.runDate,
        List.mem_append_right _ (List.mem_singleton_self _), ?_⟩
      simp [create_run_row]

theorem foldl_covers (env : SyncEnv) (items : List SyncItem) (st : List RunRow × ℕ) :
    ∀ it ∈ items, syncGuard env it = true →
      run_exists ((items.foldl (syncStep env) st).1) it.taskId it.modelId it.path =
        true := by
  induction items generalizing st with
  | nil => intro it h; exact absurd h (List.not_mem_nil it)
  | cons x rest ih =>
    intro it hmem hg
    rw [List.foldl_cons]
    rcases List.mem_cons.mp hmem with rfl | hmem'
    · exact run_exists_mono _ _ _ _ _
        (foldl_syncStep_mono env rest (syncStep env st it))
        (syncStep_covers env st it hg)
    · exact ih (syncStep env st x) it hmem' hg

theorem foldl_no_insert (env : SyncEnv) (items : List SyncItem) (st : List RunRow × ℕ)
    (h : ∀ it ∈ items, syncGuard env it = true →
      run_exists st.1 it.taskId it.modelId it.path = true) :
    items.foldl (syncStep env) st = st := by
  induction items generalizing st with
  | nil => rfl
  | cons x rest ih =>
    have hx : syncStep env st x = st := by
      cases hfm : env.findM x.path x.taskKey with
      | none => exact syncStep_none env st x hfm
      | some ms =>
        rw [syncStep_some env st x ms hfm]
        by_cases hemp : ms.isEmpty = true
        · rw [if_pos hemp]
        · rw [if_neg hemp]
          have hg : syncGuard env x = true := by
            rw [syncGuard, hfm]
            simp [hemp]
          rw [if_pos (h x (List.mem_cons_self x rest) hg)]
    rw [List.foldl_cons, hx]
    exact ih st fun it hm hg => h it (List.mem_cons_of_mem x hm) hg

/-- C9: a second sync pass over the same tree and catalog, run right after a
first pass, performs zero inserts: every combination whose guard holds was
left present — inserted or already there — by the first pass, and the
existence check matches on the same (task, model, artifacts directory)
triple the first pass wrote. -/
theorem c9_sync_idempotent (env : SyncEnv) (db : List RunRow) :
    (sync_outputs env (sync_outputs env db).1).2 = 0 := by
  have hall : ∀ it ∈ syncItems env, syncGuard env it = true →
      run_exists ((sync_outputs env db).1, 0).1 it.taskId it.modelId it.path =
        true := by
    intro it hm hg
    exact foldl_covers env (syncItems env) (db, 0) it hm hg
  have hsecond := foldl_no_insert env (syncItems env) ((sync_outputs env db).1, 0) hall
  rw [sync_outputs, hsecond]

/-- C10: the terminal update of a processed run changes only status,
finished_at and metrics on top of the claim-time row: artifacts_dir keeps
the placeholder "pending" written by mark_running, every other column
(created_at, task, model, error, started_at, command, git_commit) is what
claim time left, and the actual output directory appears only under the
"artifacts_dir" key of the serialized metrics mapping. -/
theorem c10_mark_completed_frame (db : List RunRow) (runId : ℕ) (cmd : String)
    (gc : Option String) (t1 t2 : ℕ) (d : String) (base : Metrics) :
    mark_completed (mark_running db runId "pending" cmd gc t1) runId
        (aset "artifacts_dir" (.pstr d) base) t2 =
      db.map (fun r =>
        if r.id = runId then
          { r with status := EvalStatus.COMPLETE.name, startedAt := some t1,
                   finishedAt := some t2, artifactsDir := some "pending",
                   command := some cmd, gitCommit := gc,
                   metrics := some (aset "artifacts_dir" (.pstr d) base) }
        else r) ∧
    alookup "artifacts_dir" (aset "artifacts_dir" (.pstr d) base) =
      some (.pstr d) := by
  constructor
  · rw [mark_completed, mark_running, List.map_map]
    apply List.map_congr_left
    intro r _
    by_cases h : r.id = runId
    · simp [Function.comp, h]
    · simp [Function.comp, h]
  · exact alookup_aset_self _ _ _
end Elbiat
